import Mathlib

/-!
Verification of the CAN byte-stream assembly/reassembly engine of
`src/board/can_comms.h`.

The engine turns a queue of discrete CAN frames into a chunked byte stream
(`comms_can_read`, device to host) and a chunked byte stream back into
discrete frames (`comms_can_write`, host to device), keeping one small
overflow buffer per direction for a frame that straddles a chunk boundary.

Shallow embedding conventions:
* machine bytes are `Nat` (a well-formed byte is `< 256`);
* a CAN packet / frame is its list of wire bytes;
* `asm_buffer.data` models the *valid prefix* `data[0..ptr)` of the C
  array `uint8_t data[72]` (bytes past `ptr` are never read by the code);
* the receive queue `can_rx_q` and the transmit sink `sent` (the sequence
  of frames handed to `can_send`, in order) are made explicit state.
-/

/-- `CANPACKET_HEAD_SIZE`: size of the fixed frame header
(byte 0 dlc/bus/fd, bytes 1-4 packed address/flags, byte 5 checksum). -/
def CANPACKET_HEAD_SIZE : Nat := 6

/-- Modelled from the spec: the payload-length table `dlc_to_len` is declared
outside `src/` (only its uses appear in `src/board/can_comms.h`).  Per the
spec, a 4-bit length-class code selects a payload length of 0-8 bytes
(classic CAN) or up to 64 bytes (CAN FD), total on-wire length in [6, 70];
this is the standard CAN FD DLC table with one entry per 4-bit code. -/
def dlc_to_len : List Nat := [0, 1, 2, 3, 4, 5, 6, 7, 8, 12, 16, 20, 24, 32, 48, 64]

/-- Total on-wire length of the frame starting with byte list `bs`:
`CANPACKET_HEAD_SIZE + dlc_to_len[bs[0] >> 4]`, as computed at
`can_comms.h:61` (from the packet's `data_len_code` bit-field, which is
bits 7:4 of wire byte 0) and `can_comms.h:112` (from `data[pos] >> 4U`).
Out-of-range indices return the `getD` default; for byte input the index
is always in range (see the bounds-check claim below). -/
def pckt_len (bs : List Nat) : Nat :=
  CANPACKET_HEAD_SIZE + dlc_to_len.getD (bs.headI >>> 4) 0

/-- The `asm_buffer` struct of `can_comms.h:37-41`.  `data` holds the valid
prefix `data[0..ptr)` of the 72-byte C array. -/
@[ext]
structure asm_buffer where
  ptr : Nat
  tail_size : Nat
  data : List Nat
deriving DecidableEq

/-- The complete engine state: the two overflow buffers (`can_read_buffer`,
`can_write_buffer`), the receive queue drained by `can_pop` (front = next
popped), and the ordered list of frames handed to `can_send`. -/
structure CommsState where
  can_read_buffer : asm_buffer
  can_write_buffer : asm_buffer
  can_rx_q : List (List Nat)
  sent : List (List Nat)
deriving DecidableEq

/-- Both overflow buffers zeroed, empty queue, nothing sent. -/
def comms_init : CommsState :=
  { can_read_buffer := ⟨0, 0, []⟩, can_write_buffer := ⟨0, 0, []⟩,
    can_rx_q := [], sent := [] }

/-- The `while ((pos < max_len) && can_pop(..))` loop of
`can_comms.h:60-72`, entered with the read overflow buffer `buf` empty.
Returns (bytes written to the destination by the loop, final
`can_read_buffer`, remaining queue).  A packet that does not fit the space
left is split: the prefix fills the destination, the suffix goes to the
overflow buffer (`ptr += pckt_len - (max_len - pos)`, data copied from
packet offset `max_len - pos`), and the loop stops at `pos = max_len`. -/
def read_loop (buf : asm_buffer) :
    List (List Nat) → Nat → Nat → List Nat × asm_buffer × List (List Nat)
  | [], _, _ => ([], buf, [])
  | pkt :: rest, pos, max_len =>
    if pos < max_len then
      if pos + pckt_len pkt ≤ max_len then
        let r := read_loop buf rest (pos + pckt_len pkt) max_len
        (pkt.take (pckt_len pkt) ++ r.1, r.2)
      else
        (pkt.take (max_len - pos),
         (⟨buf.ptr + (pckt_len pkt - (max_len - pos)), buf.tail_size,
           (pkt.take (pckt_len pkt)).drop (max_len - pos)⟩, rest))
    else ([], buf, pkt :: rest)

/-- `comms_can_read` (`can_comms.h:45-76`).  First sends the tail of a
previously split frame out of the overflow buffer (copying
`MIN(max_len - pos, ptr)` bytes and shifting the remainder to the front);
then, only if the buffer is now empty, pops and serializes new frames.
Returns (bytes written to the destination, new state); the C return value
`pos` is the length of the returned byte list. -/
def comms_can_read (st : CommsState) (max_len : Nat) : List Nat × CommsState :=
  let buf := st.can_read_buffer
  let overflow_len := min (max_len - 0) buf.ptr
  let out1 : List Nat := if 0 < buf.ptr then buf.data.take overflow_len else []
  let pos1 : Nat := if 0 < buf.ptr then overflow_len else 0
  let buf1 : asm_buffer :=
    if 0 < buf.ptr then
      ⟨buf.ptr - overflow_len, buf.tail_size, buf.data.drop overflow_len⟩
    else buf
  if buf1.ptr = 0 then
    let r := read_loop buf1 st.can_rx_q pos1 max_len
    (out1 ++ r.1, { st with can_read_buffer := r.2.1, can_rx_q := r.2.2 })
  else
    (out1, { st with can_read_buffer := buf1 })

/-- The `while (pos < len)` loop of `can_comms.h:111-124`, acting on the
remaining input `rest = data[pos..len)`.  A complete frame present in the
input is handed to `can_send` (appended to `sent`); a trailing incomplete
frame is stored in the write overflow buffer with
`ptr = len - pos`, `tail_size = pckt_len - ptr`. -/
def write_loop (buf : asm_buffer) (sent : List (List Nat)) (rest : List Nat) :
    asm_buffer × List (List Nat) :=
  if h : rest = [] then (buf, sent)
  else
    if pckt_len rest ≤ rest.length then
      write_loop buf (sent ++ [rest.take (pckt_len rest)]) (rest.drop (pckt_len rest))
    else
      (⟨rest.length, pckt_len rest - rest.length, rest⟩, sent)
termination_by rest.length
decreasing_by
  simp only [List.length_drop]
  have h2 : 0 < pckt_len rest := by
    simp [pckt_len, CANPACKET_HEAD_SIZE]
  omega

/-- `comms_can_write` (`can_comms.h:81-127`, excluding the final
`refresh_can_tx_slots_available()` call, modelled separately).  If the
overflow buffer holds a partial frame: either complete it with
`tail_size` incoming bytes and send it, or absorb all incoming bytes into
the buffer.  Then process the remaining input with the frame loop. -/
def comms_can_write (st : CommsState) (data : List Nat) : CommsState :=
  let buf := st.can_write_buffer
  if buf.ptr ≠ 0 then
    if buf.tail_size ≤ data.length then
      let full := buf.data ++ data.take buf.tail_size
      let r := write_loop ⟨0, 0, []⟩ (st.sent ++ [full]) (data.drop buf.tail_size)
      { st with can_write_buffer := r.1, sent := r.2 }
    else
      { st with can_write_buffer :=
          ⟨buf.ptr + data.length, buf.tail_size - data.length, buf.data ++ data⟩ }
  else
    let r := write_loop buf st.sent data
    { st with can_write_buffer := r.1, sent := r.2 }

/-- `comms_can_reset` (`can_comms.h:129-134`): zeroes `ptr` and
`tail_size` of both overflow buffers (their valid contents become empty)
and touches nothing else. -/
def comms_can_reset (st : CommsState) : CommsState :=
  { st with can_write_buffer := ⟨0, 0, []⟩, can_read_buffer := ⟨0, 0, []⟩ }

/-- The CAN receive interrupt path enqueueing a received packet
(external collaborator of the engine; needed to state reachability). -/
def rx_enqueue (st : CommsState) (pkt : List Nat) : CommsState :=
  { st with can_rx_q := st.can_rx_q ++ [pkt] }

/-- Modelled from the spec: `can_tx_check_min_slots_free` is declared
outside `src/`; per the spec it "checks whether the transmit slot pool
has at least the reservation size required" — true iff at least `n`
slots are free. -/
def can_tx_check_min_slots_free (n slots_free : Nat) : Bool :=
  n ≤ slots_free

/-- `refresh_can_tx_slots_available` (`can_comms.h:137-144`).  The burst
thresholds `MAX_CAN_MSGS_PER_USB_BULK_TRANSFER` and
`MAX_CAN_MSGS_PER_SPI_BULK_TRANSFER` are declared outside `src/` and are
passed as the parameters `usb_burst` and `spi_burst`, the external pool's
free-slot count as `slots_free`.  Returns (usb resume signalled, spi
resume signalled). -/
def refresh_can_tx_slots_available (usb_burst spi_burst slots_free : Nat) :
    Bool × Bool :=
  (can_tx_check_min_slots_free usb_burst slots_free,
   can_tx_check_min_slots_free spi_burst slots_free)

/-- The whole body of `comms_can_write` including its final
`refresh_can_tx_slots_available()` call (`can_comms.h:126`): the state
after consuming all input, paired with the admission signals computed
against the transmit pool's free-slot count at that point. -/
def comms_can_write_with_refresh (st : CommsState) (data : List Nat)
    (usb_burst spi_burst slots_free : Nat) : CommsState × (Bool × Bool) :=
  (comms_can_write st data,
   refresh_can_tx_slots_available usb_burst spi_burst slots_free)

/-- One externally triggered operation on the engine. -/
inductive CommsOp where
  | read (max_len : Nat)
  | write (data : List Nat)
  | reset
  | rx (pkt : List Nat)
deriving DecidableEq

/-- Effect of one operation on the state (the bytes returned by a read are
dropped here; reachability claims only need the state). -/
def stepOp (st : CommsState) : CommsOp → CommsState
  | .read m => (comms_can_read st m).2
  | .write d => comms_can_write st d
  | .reset => comms_can_reset st
  | .rx p => rx_enqueue st p

/-- Run a sequence of operations from a state. -/
def runOps (st : CommsState) (ops : List CommsOp) : CommsState :=
  ops.foldl stepOp st

/-- Run a sequence of write calls (one chunk each). -/
def run_writes (st : CommsState) (chunks : List (List Nat)) : CommsState :=
  chunks.foldl comms_can_write st

/-- Run a sequence of read calls with the given capacities, concatenating
the returned byte chunks. -/
def run_reads : CommsState → List Nat → List Nat × CommsState
  | st, [] => ([], st)
  | st, c :: cs =>
    let r := comms_can_read st c
    let rr := run_reads r.2 cs
    (r.1 ++ rr.1, rr.2)

/-- A well-formed wire frame: its length is exactly the on-wire length
declared by the length-class code in its first byte, and every byte is a
machine byte. -/
def wf_frame (f : List Nat) : Prop :=
  f.length = pckt_len f ∧ ∀ b ∈ f, b < 256

instance (f : List Nat) : Decidable (wf_frame f) := by
  unfold wf_frame; infer_instance

/-- Pure specification of greedy frame extraction from a byte stream:
the complete frames at the front, and the trailing incomplete remainder. -/
def decode_frames (s : List Nat) : List (List Nat) × List Nat :=
  if h : s = [] then ([], [])
  else
    if pckt_len s ≤ s.length then
      let r := decode_frames (s.drop (pckt_len s))
      (s.take (pckt_len s) :: r.1, r.2)
    else ([], s)
termination_by s.length
decreasing_by
  simp only [List.length_drop]
  have h2 : 0 < pckt_len s := by
    simp [pckt_len, CANPACKET_HEAD_SIZE]
  omega

/-- The write overflow buffer corresponding to a decode remainder. -/
def mk_wbuf (l : List Nat) : asm_buffer :=
  if l = [] then ⟨0, 0, []⟩ else ⟨l.length, pckt_len l - l.length, l⟩

/-- The byte stream still owed to the host: overflow-buffer contents
followed by the serialization of the queued frames in pop order. -/
def streamR (st : CommsState) : List Nat :=
  st.can_read_buffer.data ++ st.can_rx_q.flatten

/-! ## Basic facts about frame lengths and decoding -/

lemma dlc_to_len_getD_le (i : Nat) : dlc_to_len.getD i 0 ≤ 64 := by
  rcases Nat.lt_or_ge i 16 with hi | hi
  · interval_cases i <;> decide
  · have hlen : dlc_to_len.length ≤ i := by
      simpa [dlc_to_len] using hi
    rw [List.getD_eq_default _ _ hlen]
    omega

lemma pckt_len_six_le (s : List Nat) : 6 ≤ pckt_len s := by
  simp [pckt_len, CANPACKET_HEAD_SIZE]

lemma pckt_len_le_70 (s : List Nat) : pckt_len s ≤ 70 := by
  have := dlc_to_len_getD_le (s.headI >>> 4)
  simp only [pckt_len, CANPACKET_HEAD_SIZE]
  omega

lemma pckt_len_append {f : List Nat} (t : List Nat) (hf : f ≠ []) :
    pckt_len (f ++ t) = pckt_len f := by
  cases f with
  | nil => exact absurd rfl hf
  | cons a l => simp [pckt_len]

lemma wf_frame_ne_nil {f : List Nat} (hf : wf_frame f) : f ≠ [] := by
  intro h
  have := pckt_len_six_le f
  rw [← hf.1, h] at this
  simp at this

lemma decode_frames_nil : decode_frames [] = ([], []) := by
  simp [decode_frames]

lemma decode_frames_of_le {s : List Nat} (hs : s ≠ []) (h : pckt_len s ≤ s.length) :
    decode_frames s =
      (s.take (pckt_len s) :: (decode_frames (s.drop (pckt_len s))).1,
       (decode_frames (s.drop (pckt_len s))).2) := by
  rw [decode_frames]
  simp [hs, h]

lemma decode_frames_of_gt {s : List Nat} (hs : s ≠ []) (h : s.length < pckt_len s) :
    decode_frames s = ([], s) := by
  rw [decode_frames]
  simp [hs, Nat.not_le.mpr h]

/-- Extracting the frames and the remainder loses no byte. -/
lemma decode_frames_recompose (s : List Nat) :
    (decode_frames s).1.flatten ++ (decode_frames s).2 = s := by
  induction s using decode_frames.induct with
  | case1 => simp [decode_frames_nil]
  | case2 s hs hle ih =>
    rw [decode_frames_of_le hs hle]
    simpa [List.flatten_cons, List.append_assoc, ih] using List.take_append_drop _ s
  | case3 s hs hgt =>
    rw [decode_frames_of_gt hs (Nat.not_le.mp hgt)]
    simp

/-- Every extracted frame is exactly as long as its declared on-wire
length and nonempty; a nonempty remainder is strictly shorter than its
declared length. -/
lemma decode_frames_wf (s : List Nat) :
    (∀ f ∈ (decode_frames s).1, f.length = pckt_len f ∧ f ≠ []) ∧
      ((decode_frames s).2 ≠ [] →
        (decode_frames s).2.length < pckt_len (decode_frames s).2) := by
  induction s using decode_frames.induct with
  | case1 => simp [decode_frames_nil]
  | case2 s hs hle ih =>
    rw [decode_frames_of_le hs hle]
    refine ⟨?_, fun h => ih.2 h⟩
    intro f hf
    rcases List.mem_cons.mp hf with hf | hf
    · subst hf
      have hne : s.take (pckt_len s) ≠ [] := by
        have h6 := pckt_len_six_le s
        have hl : 0 < s.length := List.length_pos.mpr hs
        have hpos : 0 < (s.take (pckt_len s)).length := by
          rw [List.length_take]
          omega
        exact List.length_pos.mp hpos
      have hlen : (s.take (pckt_len s)).length = pckt_len s := by
        simp [List.length_take, Nat.min_eq_left hle]
      refine ⟨?_, hne⟩
      rw [hlen]
      have h2 : pckt_len (s.take (pckt_len s) ++ s.drop (pckt_len s)) =
          pckt_len (s.take (pckt_len s)) := pckt_len_append _ hne
      rw [List.take_append_drop] at h2
      exact h2
    · exact ih.1 f hf
  | case3 s hs hgt =>
    rw [decode_frames_of_gt hs (Nat.not_le.mp hgt)]
    exact ⟨by simp, fun _ => Nat.not_le.mp hgt⟩

/-- Decoding a stream that starts with a complete frame peels it off. -/
lemma decode_frames_frame_prefix {f : List Nat} (t : List Nat)
    (hlen : f.length = pckt_len f) (hne : f ≠ []) :
    decode_frames (f ++ t) =
      ((f :: (decode_frames t).1 : List (List Nat)), (decode_frames t).2) := by
  have hner : f ++ t ≠ [] := by
    cases f with
    | nil => exact absurd rfl hne
    | cons a l => simp
  have hp : pckt_len (f ++ t) = pckt_len f := pckt_len_append t hne
  have hle : pckt_len (f ++ t) ≤ (f ++ t).length := by
    rw [hp, ← hlen]
    simp [List.length_append]
  rw [decode_frames_of_le hner hle, hp, ← hlen]
  rw [List.take_left, List.drop_left]

/-- Decoding distributes over a fully framed prefix. -/
lemma decode_frames_flatten_prefix {fs : List (List Nat)} (t : List Nat)
    (hfs : ∀ f ∈ fs, f.length = pckt_len f ∧ f ≠ []) :
    decode_frames (fs.flatten ++ t) =
      (fs ++ (decode_frames t).1, (decode_frames t).2) := by
  induction fs with
  | nil => simp
  | cons f fs ih =>
    have hf := hfs f (List.mem_cons_self f fs)
    have hrest : ∀ g ∈ fs, g.length = pckt_len g ∧ g ≠ [] :=
      fun g hg => hfs g (List.mem_cons_of_mem f hg)
    rw [List.flatten_cons, List.append_assoc,
      decode_frames_frame_prefix _ hf.1 hf.2, ih hrest]
    simp

/-- A concatenation of well-formed frames decodes to exactly those frames. -/
lemma decode_frames_flatten {fs : List (List Nat)}
    (hfs : ∀ f ∈ fs, f.length = pckt_len f ∧ f ≠ []) :
    decode_frames fs.flatten = (fs, []) := by
  have := decode_frames_flatten_prefix [] hfs
  simpa [decode_frames_nil] using this

/-! ## Write side: the engine computes greedy frame extraction -/

/-- The frame loop appends the completely received frames to `sent` and
leaves the trailing remainder in the overflow buffer. -/
lemma write_loop_eq (buf : asm_buffer) (sent : List (List Nat)) (rest : List Nat) :
    write_loop buf sent rest =
      (if (decode_frames rest).2 = [] then buf else mk_wbuf (decode_frames rest).2,
       sent ++ (decode_frames rest).1) := by
  induction sent, rest using write_loop.induct buf with
  | case1 sent =>
    rw [write_loop]
    simp [decode_frames_nil]
  | case2 sent rest hne hle ih =>
    rw [write_loop]
    simp only [hne, dite_false, hle, if_true, ih, decode_frames_of_le hne hle]
    simp
  | case3 sent rest hne hgt =>
    rw [write_loop]
    simp only [hne, dite_false, hgt, if_false,
      decode_frames_of_gt hne (Nat.not_le.mp hgt)]
    simp [mk_wbuf, hne]

/-- Abstraction relation for the write side: after the engine has consumed
the byte stream `P` (with `S0` the frames sent before this session), its
overflow buffer holds exactly the trailing incomplete frame of `P` and it
has sent exactly the complete frames of `P`, in order. -/
def WModels (S0 : List (List Nat)) (st : CommsState) (P : List Nat) : Prop :=
  st.can_write_buffer = mk_wbuf (decode_frames P).2 ∧
    st.sent = S0 ++ (decode_frames P).1

lemma mk_wbuf_collapse (buf : asm_buffer) (l : List Nat) (hbuf : buf = mk_wbuf []) :
    (if l = [] then buf else mk_wbuf l) = mk_wbuf l := by
  by_cases h : l = [] <;> simp [h, hbuf]

/-- Unfolding `comms_can_write` when no partial frame is buffered. -/
lemma comms_can_write_of_ptr_eq (st : CommsState) (data : List Nat)
    (h : st.can_write_buffer.ptr = 0) :
    comms_can_write st data =
      { st with can_write_buffer := (write_loop st.can_write_buffer st.sent data).1,
                sent := (write_loop st.can_write_buffer st.sent data).2 } := by
  simp [comms_can_write, h]

/-- Unfolding `comms_can_write` when the buffered partial frame can be
completed by the incoming data. -/
lemma comms_can_write_of_complete (st : CommsState) (data : List Nat)
    (h : st.can_write_buffer.ptr ≠ 0)
    (hc : st.can_write_buffer.tail_size ≤ data.length) :
    comms_can_write st data =
      { st with
        can_write_buffer :=
          (write_loop ⟨0, 0, []⟩
            (st.sent ++
              [st.can_write_buffer.data ++ data.take st.can_write_buffer.tail_size])
            (data.drop st.can_write_buffer.tail_size)).1,
        sent :=
          (write_loop ⟨0, 0, []⟩
            (st.sent ++
              [st.can_write_buffer.data ++ data.take st.can_write_buffer.tail_size])
            (data.drop st.can_write_buffer.tail_size)).2 } := by
  simp [comms_can_write, h, hc]

/-- Unfolding `comms_can_write` when the incoming data is too short to
complete the buffered partial frame. -/
lemma comms_can_write_of_incomplete (st : CommsState) (data : List Nat)
    (h : st.can_write_buffer.ptr ≠ 0)
    (hc : ¬st.can_write_buffer.tail_size ≤ data.length) :
    comms_can_write st data =
      { st with can_write_buffer :=
          ⟨st.can_write_buffer.ptr + data.length,
           st.can_write_buffer.tail_size - data.length,
           st.can_write_buffer.data ++ data⟩ } := by
  simp [comms_can_write, h, hc]

/-- One `comms_can_write` call extends the consumed stream by its input. -/
lemma comms_can_write_models {S0 : List (List Nat)} {st : CommsState} {P : List Nat}
    (hm : WModels S0 st P) (data : List Nat) :
    WModels S0 (comms_can_write st data) (P ++ data) := by
  obtain ⟨hbuf, hsent⟩ := hm
  have hrec : (decode_frames P).1.flatten ++ (decode_frames P).2 = P :=
    decode_frames_recompose P
  have hwfF := (decode_frames_wf P).1
  have hsplit : decode_frames (P ++ data) =
      ((decode_frames P).1 ++ (decode_frames ((decode_frames P).2 ++ data)).1,
       (decode_frames ((decode_frames P).2 ++ data)).2) := by
    conv_lhs => rw [← hrec, List.append_assoc]
    exact decode_frames_flatten_prefix _ hwfF
  set L := (decode_frames P).2 with hLdef
  have hs1 : (decode_frames (P ++ data)).1 =
      (decode_frames P).1 ++ (decode_frames (L ++ data)).1 := by rw [hsplit]
  have hs2 : (decode_frames (P ++ data)).2 = (decode_frames (L ++ data)).2 := by
    rw [hsplit]
  by_cases hL : L = []
  · have h0 : st.can_write_buffer.ptr = 0 := by
      rw [hbuf, hL]; rfl
    rw [comms_can_write_of_ptr_eq st data h0]
    refine ⟨?_, ?_⟩
    · show (write_loop _ _ _).1 = _
      rw [write_loop_eq, hs2, hL, List.nil_append]
      exact mk_wbuf_collapse _ _ (hbuf.trans (by rw [hL]))
    · show (write_loop _ _ _).2 = _
      rw [write_loop_eq, hs1, hL, List.nil_append, hsent, List.append_assoc]
  · have hlt : L.length < pckt_len L := (decode_frames_wf P).2 hL
    have hLpos : 0 < L.length := List.length_pos.mpr hL
    have hb : st.can_write_buffer = ⟨L.length, pckt_len L - L.length, L⟩ := by
      rw [hbuf]; simp [mk_wbuf, hL]
    have hptr : st.can_write_buffer.ptr ≠ 0 := by
      rw [hb]; exact Nat.pos_iff_ne_zero.mp hLpos
    have hLne : L ++ data ≠ [] := fun hnil => hL (List.append_eq_nil.mp hnil).1
    have hpL : pckt_len (L ++ data) = pckt_len L := pckt_len_append data hL
    by_cases hc : pckt_len L - L.length ≤ data.length
    · -- enough data to complete the buffered frame
      have hfit : pckt_len (L ++ data) ≤ (L ++ data).length := by
        rw [hpL, List.length_append]; omega
      have htake : (L ++ data).take (pckt_len (L ++ data)) =
          L ++ data.take (pckt_len L - L.length) := by
        rw [hpL, List.take_append_eq_append_take,
          List.take_of_length_le (Nat.le_of_lt hlt)]
      have hdrop : (L ++ data).drop (pckt_len (L ++ data)) =
          data.drop (pckt_len L - L.length) := by
        rw [hpL, List.drop_append_eq_append_drop,
          List.drop_of_length_le (Nat.le_of_lt hlt), List.nil_append]
      have hLd1 : (decode_frames (L ++ data)).1 =
          (L ++ data.take (pckt_len L - L.length)) ::
            (decode_frames (data.drop (pckt_len L - L.length))).1 := by
        rw [decode_frames_of_le hLne hfit, htake, hdrop]
      have hLd2 : (decode_frames (L ++ data)).2 =
          (decode_frames (data.drop (pckt_len L - L.length))).2 := by
        rw [decode_frames_of_le hLne hfit, hdrop]
      have hcb : st.can_write_buffer.tail_size ≤ data.length := by
        rw [hb]; exact hc
      rw [comms_can_write_of_complete st data hptr hcb]
      refine ⟨?_, ?_⟩
      · show (write_loop _ _ _).1 = _
        rw [hb, write_loop_eq, hs2, hLd2]
        exact mk_wbuf_collapse _ _ rfl
      · show (write_loop _ _ _).2 = _
        rw [hb, write_loop_eq, hs1, hLd1, hsent]
        simp [List.append_assoc]
    · -- not enough data: all of it is absorbed into the buffer
      have hgt : (L ++ data).length < pckt_len (L ++ data) := by
        rw [hpL, List.length_append]; omega
      have hLd : decode_frames (L ++ data) = ([], L ++ data) :=
        decode_frames_of_gt hLne hgt
      have hLd1 : (decode_frames (L ++ data)).1 = [] := by rw [hLd]
      have hLd2 : (decode_frames (L ++ data)).2 = L ++ data := by rw [hLd]
      have hcb : ¬st.can_write_buffer.tail_size ≤ data.length := by
        rw [hb]; exact hc
      rw [comms_can_write_of_incomplete st data hptr hcb]
      refine ⟨?_, ?_⟩
      · show (_ : asm_buffer) = _
        rw [hb, hs2, hLd2]
        have hmk : mk_wbuf (L ++ data) =
            ⟨L.length + data.length, pckt_len L - L.length - data.length,
             L ++ data⟩ := by
          simp only [mk_wbuf, if_neg hLne, List.length_append, hpL,
            asm_buffer.mk.injEq]
          refine ⟨trivial, by omega, trivial⟩
        rw [hmk]
      · show _ = _
        rw [hsent, hs1, hLd1, List.append_nil]

/-- Any number of write calls: the consumed stream is the concatenation of
all chunks. -/
lemma run_writes_models {S0 : List (List Nat)} (chunks : List (List Nat)) :
    ∀ (st : CommsState) (P : List Nat), WModels S0 st P →
      WModels S0 (run_writes st chunks) (P ++ chunks.flatten) := by
  induction chunks with
  | nil => intro st P h; simpa [run_writes] using h
  | cons c cs ih =>
    intro st P h
    have h1 := comms_can_write_models h c
    have h2 := ih (comms_can_write st c) (P ++ c) h1
    simpa [run_writes, List.flatten_cons, List.append_assoc] using h2

/-- Claim C1: write-side reassembly correctness.  For every sequence of
well-formed frames serialized into one byte stream and every partition of
that stream into successive `comms_can_write` calls since the last reset
(arbitrary chunking, including mid-header, mid-payload and single-byte
chunks), the sequence of frames passed to `can_send` equals the original
frame sequence, byte for byte, in order. -/
theorem claim_C1_write_reassembly (st0 : CommsState)
    (frames chunks : List (List Nat))
    (hwf : ∀ f ∈ frames, wf_frame f)
    (hchunks : chunks.flatten = frames.flatten) :
    (run_writes (comms_can_reset st0) chunks).sent = st0.sent ++ frames := by
  have h0 : WModels st0.sent (comms_can_reset st0) [] := by
    refine ⟨?_, ?_⟩ <;> simp [comms_can_reset, mk_wbuf, decode_frames_nil]
  have h1 := run_writes_models chunks (comms_can_reset st0) [] h0
  rw [List.nil_append] at h1
  have hdec : decode_frames chunks.flatten = (frames, []) := by
    rw [hchunks]
    exact decode_frames_flatten
      (fun f hf => ⟨(hwf f hf).1, wf_frame_ne_nil (hwf f hf)⟩)
  have := h1.2
  rw [hdec] at this
  exact this

/-- Witness for claim C1 at a concrete input: an 8-byte classic frame and
a 6-byte frame, written as chunks of sizes 1, 2, 5, 5, 1 (splitting both
mid-header and mid-payload). -/
theorem claim_C1_witness :
    (∀ f ∈ [[32, 9, 9, 9, 9, 9, 11, 22], [1, 2, 3, 4, 5, 6]], wf_frame f) ∧
      ([[32], [9, 9], [9, 9, 9, 11, 22], [1, 2, 3, 4, 5]],
         [[32, 9, 9, 9, 9, 9, 11, 22], [1, 2, 3, 4, 5, 6]]).1.flatten ≠ [] ∧
      (run_writes (comms_can_reset comms_init)
          [[32], [9, 9], [9, 9, 9, 11, 22], [1, 2, 3, 4, 5], [6]]).sent =
        comms_init.sent ++ [[32, 9, 9, 9, 9, 9, 11, 22], [1, 2, 3, 4, 5, 6]] :=
  ⟨by decide, by decide,
    claim_C1_write_reassembly comms_init
      [[32, 9, 9, 9, 9, 9, 11, 22], [1, 2, 3, 4, 5, 6]]
      [[32], [9, 9], [9, 9, 9, 11, 22], [1, 2, 3, 4, 5], [6]]
      (by decide) (by decide)⟩

/-! ## Read side: chunk-size independent delivery -/

lemma read_loop_nil (buf : asm_buffer) (pos max_len : Nat) :
    read_loop buf [] pos max_len = ([], buf, []) := rfl

lemma read_loop_cons_stop (buf : asm_buffer) (pkt : List Nat)
    (rest : List (List Nat)) (pos max_len : Nat) (h1 : ¬pos < max_len) :
    read_loop buf (pkt :: rest) pos max_len = ([], buf, pkt :: rest) := by
  simp [read_loop, h1]

lemma read_loop_cons_fits (buf : asm_buffer) (pkt : List Nat)
    (rest : List (List Nat)) (pos max_len : Nat) (h1 : pos < max_len)
    (h2 : pos + pckt_len pkt ≤ max_len) :
    read_loop buf (pkt :: rest) pos max_len =
      (pkt.take (pckt_len pkt) ++
         (read_loop buf rest (pos + pckt_len pkt) max_len).1,
       (read_loop buf rest (pos + pckt_len pkt) max_len).2) := by
  simp [read_loop, h1, h2]

lemma read_loop_cons_split (buf : asm_buffer) (pkt : List Nat)
    (rest : List (List Nat)) (pos max_len : Nat) (h1 : pos < max_len)
    (h2 : ¬pos + pckt_len pkt ≤ max_len) :
    read_loop buf (pkt :: rest) pos max_len =
      (pkt.take (max_len - pos),
       (⟨buf.ptr + (pckt_len pkt - (max_len - pos)), buf.tail_size,
         (pkt.take (pckt_len pkt)).drop (max_len - pos)⟩, rest)) := by
  simp [read_loop, h1, h2]

/-- The pop loop never writes more than the space left. -/
lemma read_loop_length_le (buf : asm_buffer) (q : List (List Nat)) :
    ∀ (pos max_len : Nat),
      (read_loop buf q pos max_len).1.length ≤ max_len - pos := by
  induction q with
  | nil => intro pos m; simp [read_loop_nil]
  | cons pkt rest ih =>
    intro pos m
    by_cases h1 : pos < m
    · by_cases h2 : pos + pckt_len pkt ≤ m
      · rw [read_loop_cons_fits buf pkt rest pos m h1 h2]
        have hr := ih (pos + pckt_len pkt) m
        have ht : (pkt.take (pckt_len pkt)).length ≤ pckt_len pkt := by
          simp [List.length_take]
        simp only [List.length_append]
        omega
      · rw [read_loop_cons_split buf pkt rest pos m h1 h2]
        have : (pkt.take (m - pos)).length ≤ m - pos := by
          simp [List.length_take]
        simpa using this
    · rw [read_loop_cons_stop buf pkt rest pos m h1]
      simp

/-- Main loop invariant: entered with an empty overflow buffer and a
well-formed queue, the pop loop emits exactly the next
`min (max_len - pos) (total queued bytes)` bytes of the queued stream,
parking the split remainder in the overflow buffer. -/
lemma read_loop_spec (buf : asm_buffer) (hptr : buf.ptr = 0)
    (hdata : buf.data = []) :
    ∀ (q : List (List Nat)) (pos max_len : Nat),
      (∀ p ∈ q, p.length = pckt_len p) →
      (read_loop buf q pos max_len).1 ++
          (read_loop buf q pos max_len).2.1.data ++
          (read_loop buf q pos max_len).2.2.flatten = q.flatten ∧
        (read_loop buf q pos max_len).1.length =
          min (max_len - pos) q.flatten.length ∧
        (read_loop buf q pos max_len).2.1.data.length =
          (read_loop buf q pos max_len).2.1.ptr ∧
        (∀ p ∈ (read_loop buf q pos max_len).2.2, p.length = pckt_len p) := by
  intro q
  induction q with
  | nil =>
    intro pos m _
    simp [read_loop_nil, hdata, hptr]
  | cons pkt rest ih =>
    intro pos m hq
    have hpkt : pkt.length = pckt_len pkt := hq pkt (List.mem_cons_self _ _)
    have hrest : ∀ p ∈ rest, p.length = pckt_len p :=
      fun p hp => hq p (List.mem_cons_of_mem _ hp)
    by_cases h1 : pos < m
    · by_cases h2 : pos + pckt_len pkt ≤ m
      · -- the whole packet fits in the space left
        rw [read_loop_cons_fits buf pkt rest pos m h1 h2]
        have hr := ih (pos + pckt_len pkt) m hrest
        have htk : pkt.take (pckt_len pkt) = pkt :=
          List.take_of_length_le (Nat.le_of_eq hpkt)
        refine ⟨?_, ?_, hr.2.2.1, hr.2.2.2⟩
        · rw [htk]
          simp only [List.flatten_cons, List.append_assoc]
          simp only [List.append_assoc] at hr
          rw [hr.1]
        · rw [htk]
          simp only [List.length_append, hr.2.1, List.flatten_cons, hpkt]
          omega
      · -- the packet is split at the chunk boundary
        rw [read_loop_cons_split buf pkt rest pos m h1 h2]
        have htk : pkt.take (pckt_len pkt) = pkt :=
          List.take_of_length_le (Nat.le_of_eq hpkt)
        refine ⟨?_, ?_, ?_, hrest⟩
        · rw [htk]
          simp only [List.flatten_cons, ← List.append_assoc]
          rw [List.take_append_drop]
        · simp only [List.length_take, List.flatten_cons, List.length_append,
            hpkt]
          omega
        · rw [htk]
          simp only [List.length_drop, hptr, hpkt]
          omega
    · rw [read_loop_cons_stop buf pkt rest pos m h1]
      refine ⟨by simp [hdata], ?_, by simp [hdata, hptr], hq⟩
      have : m - pos = 0 := by omega
      simp [this]

lemma comms_can_read_of_ptr_eq (st : CommsState) (max_len : Nat)
    (h : st.can_read_buffer.ptr = 0) :
    comms_can_read st max_len =
      ((read_loop st.can_read_buffer st.can_rx_q 0 max_len).1,
       { st with
         can_read_buffer :=
           (read_loop st.can_read_buffer st.can_rx_q 0 max_len).2.1,
         can_rx_q := (read_loop st.can_read_buffer st.can_rx_q 0 max_len).2.2 }) := by
  simp [comms_can_read, h]

lemma comms_can_read_of_drain (st : CommsState) (max_len : Nat)
    (h : 0 < st.can_read_buffer.ptr) (hle : st.can_read_buffer.ptr ≤ max_len) :
    comms_can_read st max_len =
      (st.can_read_buffer.data.take st.can_read_buffer.ptr ++
         (read_loop
           ⟨0, st.can_read_buffer.tail_size,
            st.can_read_buffer.data.drop st.can_read_buffer.ptr⟩
           st.can_rx_q st.can_read_buffer.ptr max_len).1,
       { st with
         can_read_buffer :=
           (read_loop
             ⟨0, st.can_read_buffer.tail_size,
              st.can_read_buffer.data.drop st.can_read_buffer.ptr⟩
             st.can_rx_q st.can_read_buffer.ptr max_len).2.1,
         can_rx_q :=
           (read_loop
             ⟨0, st.can_read_buffer.tail_size,
              st.can_read_buffer.data.drop st.can_read_buffer.ptr⟩
             st.can_rx_q st.can_read_buffer.ptr max_len).2.2 }) := by
  have hmin : min max_len st.can_read_buffer.ptr = st.can_read_buffer.ptr := by
    omega
  simp [comms_can_read, h, hmin]

lemma comms_can_read_of_gt (st : CommsState) (max_len : Nat)
    (h : 0 < st.can_read_buffer.ptr) (hgt : max_len < st.can_read_buffer.ptr) :
    comms_can_read st max_len =
      (st.can_read_buffer.data.take max_len,
       { st with
         can_read_buffer :=
           ⟨st.can_read_buffer.ptr - max_len, st.can_read_buffer.tail_size,
            st.can_read_buffer.data.drop max_len⟩ }) := by
  have hmin : min max_len st.can_read_buffer.ptr = max_len := by omega
  have hne : ¬st.can_read_buffer.ptr - max_len = 0 := by omega
  simp [comms_can_read, h, hmin, hne]

/-- The read call never touches the write side. -/
lemma comms_can_read_write_side (st : CommsState) (max_len : Nat) :
    (comms_can_read st max_len).2.can_write_buffer = st.can_write_buffer ∧
      (comms_can_read st max_len).2.sent = st.sent := by
  rcases Nat.eq_zero_or_pos st.can_read_buffer.ptr with hp | hp
  · rw [comms_can_read_of_ptr_eq st max_len hp]; exact ⟨rfl, rfl⟩
  · rcases le_or_lt st.can_read_buffer.ptr max_len with hle | hgt
    · rw [comms_can_read_of_drain st max_len hp hle]; exact ⟨rfl, rfl⟩
    · rw [comms_can_read_of_gt st max_len hp hgt]; exact ⟨rfl, rfl⟩

/-- Single-call read specification: a call with capacity `cap` returns the
next `min cap (bytes owed)` bytes of the owed stream and owes the rest. -/
lemma comms_can_read_spec (st : CommsState) (cap : Nat)
    (hinv : st.can_read_buffer.data.length = st.can_read_buffer.ptr)
    (hq : ∀ p ∈ st.can_rx_q, p.length = pckt_len p) :
    (comms_can_read st cap).1 ++ streamR (comms_can_read st cap).2 = streamR st ∧
      (comms_can_read st cap).1.length = min cap (streamR st).length ∧
      (comms_can_read st cap).2.can_read_buffer.data.length =
        (comms_can_read st cap).2.can_read_buffer.ptr ∧
      (∀ p ∈ (comms_can_read st cap).2.can_rx_q, p.length = pckt_len p) := by
  rcases Nat.eq_zero_or_pos st.can_read_buffer.ptr with hp | hp
  · -- no pending tail: straight to the pop loop
    have hd : st.can_read_buffer.data = [] := by
      rw [← List.length_eq_zero]
      omega
    rw [comms_can_read_of_ptr_eq st cap hp]
    have hs := read_loop_spec st.can_read_buffer hp hd st.can_rx_q 0 cap hq
    refine ⟨?_, ?_, hs.2.2.1, hs.2.2.2⟩
    · simp only [streamR, hd, List.nil_append, ← List.append_assoc]
      simpa [List.append_assoc] using hs.1
    · simp only [streamR, hd, List.nil_append]
      simpa using hs.2.1
  · rcases le_or_lt st.can_read_buffer.ptr cap with hle | hgt
    · -- the whole pending tail drains, then the loop runs
      rw [comms_can_read_of_drain st cap hp hle]
      have hdrop : st.can_read_buffer.data.drop st.can_read_buffer.ptr = [] :=
        List.drop_of_length_le (Nat.le_of_eq hinv)
      have htake : st.can_read_buffer.data.take st.can_read_buffer.ptr =
          st.can_read_buffer.data :=
        List.take_of_length_le (Nat.le_of_eq hinv)
      have hs := read_loop_spec
        ⟨0, st.can_read_buffer.tail_size,
         st.can_read_buffer.data.drop st.can_read_buffer.ptr⟩ rfl
        (by simpa using hdrop) st.can_rx_q st.can_read_buffer.ptr cap hq
      refine ⟨?_, ?_, hs.2.2.1, hs.2.2.2⟩
      · simp only [streamR, htake, List.append_assoc]
        simp only [List.append_assoc] at hs
        rw [hs.1]
      · simp only [streamR, List.length_append, htake, hs.2.1, hinv]
        omega
    · -- the capacity is filled from the pending tail alone
      rw [comms_can_read_of_gt st cap hp hgt]
      refine ⟨?_, ?_, ?_, hq⟩
      · simp only [streamR, ← List.append_assoc]
        rw [List.take_append_drop]
      · simp only [streamR, List.length_take, List.length_append, hinv]
        omega
      · simp only [List.length_drop, hinv]

lemma run_reads_cons (st : CommsState) (c : Nat) (cs : List Nat) :
    run_reads st (c :: cs) =
      ((comms_can_read st c).1 ++ (run_reads (comms_can_read st c).2 cs).1,
       (run_reads (comms_can_read st c).2 cs).2) := rfl

/-- Multi-call read specification: a sequence of reads delivers the next
`min (sum of capacities) (bytes owed)` bytes of the owed stream. -/
lemma run_reads_spec (caps : List Nat) :
    ∀ (st : CommsState),
      st.can_read_buffer.data.length = st.can_read_buffer.ptr →
      (∀ p ∈ st.can_rx_q, p.length = pckt_len p) →
      (run_reads st caps).1 ++ streamR (run_reads st caps).2 = streamR st ∧
        (run_reads st caps).1.length = min caps.sum (streamR st).length := by
  induction caps with
  | nil =>
    intro st _ _
    simp [run_reads]
  | cons c cs ih =>
    intro st h1 h2
    have hc := comms_can_read_spec st c h1 h2
    have hrec := ih (comms_can_read st c).2 hc.2.2.1 hc.2.2.2
    rw [run_reads_cons]
    constructor
    · rw [List.append_assoc, hrec.1, hc.1]
    · have hlen : (streamR (comms_can_read st c).2).length =
          (streamR st).length - min c (streamR st).length := by
        have hlen0 := congrArg List.length hc.1
        rw [List.length_append, hc.2.1] at hlen0
        omega
      rw [List.length_append, hrec.2, hc.2.1, hlen, List.sum_cons]
      omega

/-- Claim C2: read-side chunking invariance.  For every well-formed frame
sequence in the receive queue and every sequence of read capacities (each
at least 1) whose sum covers the total serialized length, the
concatenation of all returned chunks equals the exact byte-for-byte
serialization of the frames in FIFO pop order. -/
theorem claim_C2_read_chunking (st0 : CommsState) (caps : List Nat)
    (hwf : ∀ f ∈ st0.can_rx_q, wf_frame f)
    (hcap : ∀ c ∈ caps, 1 ≤ c)
    (hsum : st0.can_rx_q.flatten.length ≤ caps.sum) :
    (run_reads (comms_can_reset st0) caps).1 = st0.can_rx_q.flatten := by
  have h1 : (comms_can_reset st0).can_read_buffer.data.length =
      (comms_can_reset st0).can_read_buffer.ptr := rfl
  have h2 : ∀ p ∈ (comms_can_reset st0).can_rx_q, p.length = pckt_len p :=
    fun p hp => (hwf p hp).1
  have hs := run_reads_spec caps (comms_can_reset st0) h1 h2
  have hstream : streamR (comms_can_reset st0) = st0.can_rx_q.flatten := by
    simp [streamR, comms_can_reset]
  rw [hstream] at hs
  have hlen : (run_reads (comms_can_reset st0) caps).1.length =
      st0.can_rx_q.flatten.length := by
    rw [hs.2]; omega
  have h3 := congrArg
    (List.take (run_reads (comms_can_reset st0) caps).1.length) hs.1
  rw [List.take_left] at h3
  rw [h3, hlen, List.take_length]

/-- Witness for claim C2 at a concrete input: an 8-byte and a 6-byte frame
read back through capacities 3, 1, 4, 6 (several frame-straddling
chunks). -/
theorem claim_C2_witness :
    (∀ f ∈ ({ comms_init with
        can_rx_q := [[32, 9, 9, 9, 9, 9, 11, 22], [1, 2, 3, 4, 5, 6]] } :
          CommsState).can_rx_q, wf_frame f) ∧
      (∀ c ∈ [3, 1, 4, 6], 1 ≤ c) ∧
      (run_reads
          (comms_can_reset
            { comms_init with
              can_rx_q := [[32, 9, 9, 9, 9, 9, 11, 22], [1, 2, 3, 4, 5, 6]] })
          [3, 1, 4, 6]).1 =
        [32, 9, 9, 9, 9, 9, 11, 22, 1, 2, 3, 4, 5, 6] :=
  ⟨by decide, by decide,
    claim_C2_read_chunking
      { comms_init with
        can_rx_q := [[32, 9, 9, 9, 9, 9, 11, 22], [1, 2, 3, 4, 5, 6]] }
      [3, 1, 4, 6] (by decide) (by decide) (by decide)⟩

/-- Claim C6: read-side capacity bound and split-frame handling.
First part: a read call returns (and hence writes into the destination)
at most `max_len` bytes, whatever the state.  Second part: when the pop
loop (entered with an empty overflow buffer, as it always is) pops a
well-formed frame that does not fit the remaining destination space, it
writes exactly the prefix that fills the destination to capacity, stores
the remaining suffix in the overflow buffer with `ptr` equal to the
suffix length, and pops no further frame in this call. -/
theorem claim_C6_read_capacity_and_split :
    (∀ (st : CommsState) (max_len : Nat),
        (comms_can_read st max_len).1.length ≤ max_len) ∧
      (∀ (buf : asm_buffer) (pkt : List Nat) (rest : List (List Nat))
          (pos max_len : Nat),
        buf.ptr = 0 → pkt.length = pckt_len pkt → pos < max_len →
        max_len < pos + pckt_len pkt →
        read_loop buf (pkt :: rest) pos max_len =
            (pkt.take (max_len - pos),
             (⟨pckt_len pkt - (max_len - pos), buf.tail_size,
               pkt.drop (max_len - pos)⟩, rest)) ∧
          (pkt.take (max_len - pos)).length = max_len - pos) := by
  constructor
  · intro st m
    rcases Nat.eq_zero_or_pos st.can_read_buffer.ptr with hp | hp
    · rw [comms_can_read_of_ptr_eq st m hp]
      have := read_loop_length_le st.can_read_buffer st.can_rx_q 0 m
      simpa using this
    · rcases le_or_lt st.can_read_buffer.ptr m with hle | hgt
      · rw [comms_can_read_of_drain st m hp hle]
        have h1 := read_loop_length_le
          ⟨0, st.can_read_buffer.tail_size,
           st.can_read_buffer.data.drop st.can_read_buffer.ptr⟩
          st.can_rx_q st.can_read_buffer.ptr m
        have h2 : (st.can_read_buffer.data.take st.can_read_buffer.ptr).length ≤
            st.can_read_buffer.ptr := by
          simp [List.length_take]
        simp only [List.length_append]
        omega
      · rw [comms_can_read_of_gt st m hp hgt]
        simp [List.length_take]
  · intro buf pkt rest pos m hb hpkt h1 h2
    have hns : ¬pos + pckt_len pkt ≤ m := by omega
    rw [read_loop_cons_split buf pkt rest pos m h1 hns]
    have htk : pkt.take (pckt_len pkt) = pkt :=
      List.take_of_length_le (Nat.le_of_eq hpkt)
    rw [htk, hb]
    simp only [Nat.zero_add]
    refine ⟨trivial, ?_⟩
    simp only [List.length_take, hpkt]
    omega

/-- Witness for claim C6: capacity bound at a concrete state, and a
6-byte frame split after 3 of its bytes by a capacity-3 destination. -/
theorem claim_C6_witness :
    (comms_can_read
        { comms_init with can_rx_q := [[1, 2, 3, 4, 5, 6]] } 3).1.length ≤ 3 ∧
      read_loop ⟨0, 0, []⟩ [[1, 2, 3, 4, 5, 6]] 0 3 =
          ([1, 2, 3], (⟨3, 0, [4, 5, 6]⟩, [])) ∧
        ([1, 2, 3] : List Nat).length = 3 :=
  ⟨claim_C6_read_capacity_and_split.1
      { comms_init with can_rx_q := [[1, 2, 3, 4, 5, 6]] } 3,
    by
      have h := claim_C6_read_capacity_and_split.2 ⟨0, 0, []⟩ [1, 2, 3, 4, 5, 6]
        [] 0 3 (by decide) (by decide) (by decide) (by decide)
      exact h⟩

/-- Claim C7: idempotent reset.  `comms_can_reset` zeroes `ptr` and
`tail_size` of both overflow buffers (emptying their valid contents),
has no other observable effect (queue and transmit history untouched),
resetting twice equals resetting once, and resetting the already-empty
initial state is the identity. -/
theorem claim_C7_reset_idempotent (st : CommsState) :
    comms_can_reset (comms_can_reset st) = comms_can_reset st ∧
      (comms_can_reset st).can_read_buffer.ptr = 0 ∧
      (comms_can_reset st).can_read_buffer.tail_size = 0 ∧
      (comms_can_reset st).can_write_buffer.ptr = 0 ∧
      (comms_can_reset st).can_write_buffer.tail_size = 0 ∧
      (comms_can_reset st).can_rx_q = st.can_rx_q ∧
      (comms_can_reset st).sent = st.sent ∧
      comms_can_reset comms_init = comms_init :=
  ⟨rfl, rfl, rfl, rfl, rfl, rfl, rfl, rfl⟩

/-- Claim C8: read starvation.  With an empty receive queue and an empty
read overflow buffer, a read with capacity 64 returns 0 bytes and leaves
the whole engine state unchanged. -/
theorem claim_C8_read_starvation (st : CommsState)
    (hq : st.can_rx_q = []) (hp : st.can_read_buffer.ptr = 0) :
    comms_can_read st 64 = ([], st) := by
  obtain ⟨rb, wb, q, s⟩ := st
  simp only at hq hp
  subst hq
  rw [comms_can_read_of_ptr_eq _ 64 hp]
  simp [read_loop_nil]

/-- Witness for claim C8 at a concrete state (with a pending write-side
partial frame, which the read call must not disturb). -/
theorem claim_C8_witness :
    comms_can_read
        { can_read_buffer := ⟨0, 0, []⟩, can_write_buffer := ⟨2, 6, [32, 9]⟩,
          can_rx_q := [], sent := [[1, 2, 3, 4, 5, 6]] } 64 =
      ([], { can_read_buffer := ⟨0, 0, []⟩, can_write_buffer := ⟨2, 6, [32, 9]⟩,
             can_rx_q := [], sent := [[1, 2, 3, 4, 5, 6]] }) :=
  claim_C8_read_starvation _ rfl rfl

/-! ## Reachability invariants -/

/-- Write-buffer invariant: `data` is the valid prefix of length `ptr`; an
empty buffer has everything zero; a pending partial frame is strictly
shorter than its declared on-wire length, which equals `ptr + tail_size`. -/
def wbuf_inv (b : asm_buffer) : Prop :=
  b.data.length = b.ptr ∧ (b.ptr = 0 → b.tail_size = 0 ∧ b.data = []) ∧
    (0 < b.ptr →
      b.ptr + b.tail_size = pckt_len b.data ∧ b.ptr < pckt_len b.data)

/-- Read-buffer invariant: the valid bytes fit under `ptr`, and `ptr`
never exceeds the longest possible frame (70 bytes). -/
def rbuf_inv (b : asm_buffer) : Prop :=
  b.data.length ≤ b.ptr ∧ b.ptr ≤ 70

/-- Invariant of every reachable engine state. -/
def comms_inv (st : CommsState) : Prop :=
  wbuf_inv st.can_write_buffer ∧ rbuf_inv st.can_read_buffer

/-- Any state whose write buffer satisfies the invariant models the byte
stream consisting of its own buffered bytes. -/
lemma WModels_self (st : CommsState) (h : wbuf_inv st.can_write_buffer) :
    WModels st.sent st st.can_write_buffer.data := by
  obtain ⟨h1, h2, h3⟩ := h
  rcases Nat.eq_zero_or_pos st.can_write_buffer.ptr with hp | hp
  · obtain ⟨ht, hd⟩ := h2 hp
    constructor
    · show st.can_write_buffer = mk_wbuf (decode_frames st.can_write_buffer.data).2
      rw [hd, decode_frames_nil]
      refine asm_buffer.ext ?_ ?_ ?_
      · exact hp
      · exact ht
      · exact hd
    · show st.sent = st.sent ++ (decode_frames st.can_write_buffer.data).1
      rw [hd, decode_frames_nil]
      simp
  · have hdne : st.can_write_buffer.data ≠ [] := by
      have hpos : 0 < st.can_write_buffer.data.length := by omega
      exact List.length_pos.mp hpos
    have h3' := h3 hp
    have hlt : st.can_write_buffer.data.length < pckt_len st.can_write_buffer.data := by
      omega
    constructor
    · show st.can_write_buffer = mk_wbuf (decode_frames st.can_write_buffer.data).2
      rw [decode_frames_of_gt hdne hlt]
      simp only [mk_wbuf, if_neg hdne]
      refine asm_buffer.ext ?_ ?_ ?_
      · exact h1.symm
      · show st.can_write_buffer.tail_size =
          pckt_len st.can_write_buffer.data - st.can_write_buffer.data.length
        omega
      · rfl
    · show st.sent = st.sent ++ (decode_frames st.can_write_buffer.data).1
      rw [decode_frames_of_gt hdne hlt]
      simp

/-- Conversely, a modelled state satisfies the write-buffer invariant. -/
lemma wbuf_inv_of_models {S0 : List (List Nat)} {st : CommsState}
    {P : List Nat} (h : WModels S0 st P) : wbuf_inv st.can_write_buffer := by
  obtain ⟨hbuf, _⟩ := h
  by_cases hL : (decode_frames P).2 = []
  · rw [hbuf, hL]
    refine ⟨rfl, fun _ => ⟨rfl, rfl⟩, fun hp => absurd hp (by simp [mk_wbuf])⟩
  · have hlt := (decode_frames_wf P).2 hL
    have hpos := List.length_pos.mpr hL
    have hm : mk_wbuf (decode_frames P).2 =
        ⟨(decode_frames P).2.length,
         pckt_len (decode_frames P).2 - (decode_frames P).2.length,
         (decode_frames P).2⟩ := by
      simp [mk_wbuf, hL]
    rw [hbuf, hm]
    refine ⟨rfl, fun h0 => ?_, fun _ => ⟨?_, ?_⟩⟩
    · exact absurd (show (decode_frames P).2.length = 0 from h0) (by omega)
    · show (decode_frames P).2.length +
          (pckt_len (decode_frames P).2 - (decode_frames P).2.length) =
        pckt_len (decode_frames P).2
      omega
    · exact hlt

/-- A write call preserves the write-buffer invariant. -/
lemma wbuf_inv_write (st : CommsState) (data : List Nat)
    (h : wbuf_inv st.can_write_buffer) :
    wbuf_inv (comms_can_write st data).can_write_buffer :=
  wbuf_inv_of_models (comms_can_write_models (WModels_self st h) data)

/-- The write call never touches the read side. -/
lemma comms_can_write_read_side (st : CommsState) (data : List Nat) :
    (comms_can_write st data).can_read_buffer = st.can_read_buffer ∧
      (comms_can_write st data).can_rx_q = st.can_rx_q := by
  by_cases h : st.can_write_buffer.ptr ≠ 0
  · by_cases hc : st.can_write_buffer.tail_size ≤ data.length
    · rw [comms_can_write_of_complete st data h hc]; exact ⟨rfl, rfl⟩
    · rw [comms_can_write_of_incomplete st data h hc]; exact ⟨rfl, rfl⟩
  · rw [comms_can_write_of_ptr_eq st data (not_not.mp h)]; exact ⟨rfl, rfl⟩

/-- The pop loop keeps the read buffer's valid bytes under `ptr`, and
`ptr` under 70. -/
lemma read_loop_buffer_bound (q : List (List Nat)) :
    ∀ (buf : asm_buffer) (pos max_len : Nat), buf.ptr = 0 → buf.data = [] →
      (read_loop buf q pos max_len).2.1.data.length ≤
          (read_loop buf q pos max_len).2.1.ptr ∧
        (read_loop buf q pos max_len).2.1.ptr ≤ 70 := by
  induction q with
  | nil =>
    intro buf pos m h0 hd
    rw [read_loop_nil]
    simp [hd, h0]
  | cons pkt rest ih =>
    intro buf pos m h0 hd
    by_cases h1 : pos < m
    · by_cases h2 : pos + pckt_len pkt ≤ m
      · rw [read_loop_cons_fits buf pkt rest pos m h1 h2]
        exact ih buf (pos + pckt_len pkt) m h0 hd
      · rw [read_loop_cons_split buf pkt rest pos m h1 h2]
        have hp70 := pckt_len_le_70 pkt
        constructor
        · simp only [List.length_drop, List.length_take, h0]
          omega
        · simp only [h0]
          omega
    · rw [read_loop_cons_stop buf pkt rest pos m h1]
      simp [hd, h0]

/-- A read call preserves the read-buffer invariant. -/
lemma rbuf_inv_read (st : CommsState) (max_len : Nat)
    (h : rbuf_inv st.can_read_buffer) :
    rbuf_inv (comms_can_read st max_len).2.can_read_buffer := by
  obtain ⟨hd, hp⟩ := h
  rcases Nat.eq_zero_or_pos st.can_read_buffer.ptr with h0 | h0
  · rw [comms_can_read_of_ptr_eq st max_len h0]
    have hdl : st.can_read_buffer.data = [] := by
      rw [← List.length_eq_zero]
      omega
    exact read_loop_buffer_bound st.can_rx_q st.can_read_buffer 0 max_len h0 hdl
  · rcases le_or_lt st.can_read_buffer.ptr max_len with hle | hgt
    · rw [comms_can_read_of_drain st max_len h0 hle]
      exact read_loop_buffer_bound st.can_rx_q _ st.can_read_buffer.ptr max_len
        rfl (List.drop_eq_nil_of_le hd)
    · rw [comms_can_read_of_gt st max_len h0 hgt]
      constructor
      · simp only [List.length_drop]
        omega
      · show st.can_read_buffer.ptr - max_len ≤ 70
        omega

/-- Every single operation preserves the engine invariant. -/
lemma comms_inv_step (st : CommsState) (op : CommsOp) (h : comms_inv st) :
    comms_inv (stepOp st op) := by
  cases op with
  | read m =>
    refine ⟨?_, rbuf_inv_read st m h.2⟩
    show wbuf_inv (comms_can_read st m).2.can_write_buffer
    rw [(comms_can_read_write_side st m).1]
    exact h.1
  | write d =>
    refine ⟨wbuf_inv_write st d h.1, ?_⟩
    show rbuf_inv (comms_can_write st d).can_read_buffer
    rw [(comms_can_write_read_side st d).1]
    exact h.2
  | reset =>
    refine ⟨⟨rfl, fun _ => ⟨rfl, rfl⟩, fun hp => ?_⟩, ⟨?_, ?_⟩⟩
    · exact absurd (show (0 : Nat) < 0 from hp) (by omega)
    · exact Nat.le_refl 0
    · exact Nat.zero_le 70
  | rx p => exact h

/-- The invariant holds along any run. -/
lemma comms_inv_run (ops : List CommsOp) :
    ∀ st, comms_inv st → comms_inv (runOps st ops) := by
  induction ops with
  | nil => intro st h; exact h
  | cons op rest ih => intro st h; exact ih (stepOp st op) (comms_inv_step st op h)

lemma comms_inv_comms_init : comms_inv comms_init :=
  ⟨⟨rfl, fun _ => ⟨rfl, rfl⟩,
    fun hp => absurd (show (0 : Nat) < 0 from hp) (by omega)⟩,
   ⟨Nat.le_refl 0, Nat.zero_le 70⟩⟩

/-- The invariant holds in every state reachable from the initial state. -/
lemma comms_inv_reachable (ops : List CommsOp) :
    comms_inv (runOps comms_init ops) :=
  comms_inv_run ops comms_init comms_inv_comms_init

/-- Claim C3: write-side state invariant.  After any sequence of
operations from the reset state (so after reset and after every
`comms_can_write` call, with reads and receive-queue activity
interleaved), if the write overflow buffer is nonempty then
`ptr + tail_size` equals the total on-wire length of the frame being
assembled: `CANPACKET_HEAD_SIZE` plus the payload length selected by the
length-class code in the buffered frame's first byte. -/
theorem claim_C3_write_invariant (ops : List CommsOp)
    (hp : 0 < (runOps comms_init ops).can_write_buffer.ptr) :
    (runOps comms_init ops).can_write_buffer.ptr +
        (runOps comms_init ops).can_write_buffer.tail_size =
      CANPACKET_HEAD_SIZE +
        dlc_to_len.getD
          ((runOps comms_init ops).can_write_buffer.data.headI >>> 4) 0 :=
  ((comms_inv_reachable ops).1.2.2 hp).1

/-- Witness for claim C3: after writing the first 2 bytes of an 8-byte
frame, `ptr = 2`, `tail_size = 6`, and `2 + 6 = 6 + dlc_to_len[2]`. -/
theorem claim_C3_witness :
    0 < (runOps comms_init [CommsOp.write [32, 9]]).can_write_buffer.ptr ∧
      (runOps comms_init [CommsOp.write [32, 9]]).can_write_buffer.ptr +
          (runOps comms_init [CommsOp.write [32, 9]]).can_write_buffer.tail_size =
        CANPACKET_HEAD_SIZE +
          dlc_to_len.getD
            ((runOps comms_init
              [CommsOp.write [32, 9]]).can_write_buffer.data.headI >>> 4) 0 :=
  ⟨by simp [runOps, stepOp, comms_can_write, comms_init, write_loop, pckt_len,
      CANPACKET_HEAD_SIZE, dlc_to_len],
    claim_C3_write_invariant [CommsOp.write [32, 9]]
      (by simp [runOps, stepOp, comms_can_write, comms_init, write_loop,
        pckt_len, CANPACKET_HEAD_SIZE, dlc_to_len])⟩

/-- Claim C10: the length-unknown state never occurs.  In every reachable
state, a nonempty write overflow buffer already stores the frame's first
byte (`data` is nonempty, exactly `ptr` bytes long), still needs at least
one more byte (`tail_size ≥ 1`), and the frame's total length is fully
determined by the stored first byte (`ptr + tail_size = pckt_len data`);
so a partial frame is never recorded before its first byte arrives. -/
theorem claim_C10_no_unknown_length (ops : List CommsOp)
    (hp : 0 < (runOps comms_init ops).can_write_buffer.ptr) :
    (runOps comms_init ops).can_write_buffer.data ≠ [] ∧
      (runOps comms_init ops).can_write_buffer.data.length =
        (runOps comms_init ops).can_write_buffer.ptr ∧
      1 ≤ (runOps comms_init ops).can_write_buffer.tail_size ∧
      (runOps comms_init ops).can_write_buffer.ptr +
          (runOps comms_init ops).can_write_buffer.tail_size =
        pckt_len (runOps comms_init ops).can_write_buffer.data := by
  obtain ⟨⟨h1, _, h3⟩, _⟩ := comms_inv_reachable ops
  have h3' := h3 hp
  refine ⟨?_, h1, by omega, h3'.1⟩
  have : 0 < (runOps comms_init ops).can_write_buffer.data.length := by omega
  exact List.length_pos.mp this

/-- Witness for claim C10: a single 1-byte write leaves `data = [32]`,
`ptr = 1`, `tail_size = 7`. -/
theorem claim_C10_witness :
    0 < (runOps comms_init [CommsOp.write [32]]).can_write_buffer.ptr ∧
      (runOps comms_init [CommsOp.write [32]]).can_write_buffer.data ≠ [] ∧
      (runOps comms_init [CommsOp.write [32]]).can_write_buffer.data.length =
        (runOps comms_init [CommsOp.write [32]]).can_write_buffer.ptr ∧
      1 ≤ (runOps comms_init [CommsOp.write [32]]).can_write_buffer.tail_size ∧
      (runOps comms_init [CommsOp.write [32]]).can_write_buffer.ptr +
          (runOps comms_init [CommsOp.write [32]]).can_write_buffer.tail_size =
        pckt_len (runOps comms_init [CommsOp.write [32]]).can_write_buffer.data :=
  ⟨by simp [runOps, stepOp, comms_can_write, comms_init, write_loop, pckt_len,
      CANPACKET_HEAD_SIZE, dlc_to_len],
    claim_C10_no_unknown_length [CommsOp.write [32]]
      (by simp [runOps, stepOp, comms_can_write, comms_init, write_loop,
        pckt_len, CANPACKET_HEAD_SIZE, dlc_to_len])⟩

/-- An operation whose frame lengths stay in the wire-format envelope: a
packet delivered by the receive interrupt is at most 70 bytes long (the
length declared by any length-class code is at most `6 + 64 = 70` by
construction of `dlc_to_len`, so write data needs no side condition). -/
def op_envelope : CommsOp → Prop
  | .rx pkt => pkt.length ≤ 70
  | _ => True

instance (op : CommsOp) : Decidable (op_envelope op) := by
  cases op <;> (unfold op_envelope; infer_instance)

/-- Claim C5: the overflow buffers are never overrun.  For every sequence
of read, write, reset and receive-enqueue operations from the initial
state, with all frame lengths in the wire-format envelope, both overflow
buffers keep `ptr` at most 72 and hold at most 72 valid bytes, and on the
write side every store extent `ptr + tail_size` stays at most 72 — so
every store into the 72-byte `data` arrays is in bounds (read-side
stores end at the new `ptr`; write-side stores end at or before
`ptr + tail_size`; and any prefix of `ops` is itself such a sequence). -/
theorem claim_C5_no_overrun (ops : List CommsOp)
    (henv : ∀ op ∈ ops, op_envelope op) :
    ((runOps comms_init ops).can_read_buffer.ptr ≤ 72 ∧
        (runOps comms_init ops).can_read_buffer.data.length ≤ 72) ∧
      ((runOps comms_init ops).can_write_buffer.ptr ≤ 72 ∧
        (runOps comms_init ops).can_write_buffer.data.length ≤ 72 ∧
        (runOps comms_init ops).can_write_buffer.ptr +
            (runOps comms_init ops).can_write_buffer.tail_size ≤ 72) := by
  obtain ⟨⟨h1, h2, h3⟩, hr1, hr2⟩ := comms_inv_reachable ops
  have hw : (runOps comms_init ops).can_write_buffer.ptr +
      (runOps comms_init ops).can_write_buffer.tail_size ≤ 72 := by
    rcases Nat.eq_zero_or_pos (runOps comms_init ops).can_write_buffer.ptr with
      h0 | h0
    · have := (h2 h0).1
      omega
    · have := (h3 h0).1
      have := pckt_len_le_70 (runOps comms_init ops).can_write_buffer.data
      omega
  exact ⟨⟨by omega, by omega⟩, ⟨by omega, by omega, hw⟩⟩

/-- Witness for claim C5: a run with an enqueued 70-byte CAN FD frame, a
partial read, a partial write and a reset stays within bounds. -/
theorem claim_C5_witness :
    (∀ op ∈ [CommsOp.rx (List.replicate 70 255), CommsOp.read 10,
        CommsOp.write [240, 1, 2], CommsOp.reset, CommsOp.write [0]],
      op_envelope op) ∧
      ((runOps comms_init [CommsOp.rx (List.replicate 70 255), CommsOp.read 10,
          CommsOp.write [240, 1, 2], CommsOp.reset,
          CommsOp.write [0]]).can_read_buffer.ptr ≤ 72 ∧
        (runOps comms_init [CommsOp.rx (List.replicate 70 255), CommsOp.read 10,
          CommsOp.write [240, 1, 2], CommsOp.reset,
          CommsOp.write [0]]).can_read_buffer.data.length ≤ 72) ∧
      ((runOps comms_init [CommsOp.rx (List.replicate 70 255), CommsOp.read 10,
          CommsOp.write [240, 1, 2], CommsOp.reset,
          CommsOp.write [0]]).can_write_buffer.ptr ≤ 72 ∧
        (runOps comms_init [CommsOp.rx (List.replicate 70 255), CommsOp.read 10,
          CommsOp.write [240, 1, 2], CommsOp.reset,
          CommsOp.write [0]]).can_write_buffer.data.length ≤ 72 ∧
        (runOps comms_init [CommsOp.rx (List.replicate 70 255), CommsOp.read 10,
            CommsOp.write [240, 1, 2], CommsOp.reset,
            CommsOp.write [0]]).can_write_buffer.ptr +
            (runOps comms_init [CommsOp.rx (List.replicate 70 255),
              CommsOp.read 10, CommsOp.write [240, 1, 2], CommsOp.reset,
              CommsOp.write [0]]).can_write_buffer.tail_size ≤ 72) :=
  ⟨by decide,
    (claim_C5_no_overrun [CommsOp.rx (List.replicate 70 255), CommsOp.read 10,
      CommsOp.write [240, 1, 2], CommsOp.reset, CommsOp.write [0]]
      (by decide)).1,
    (claim_C5_no_overrun [CommsOp.rx (List.replicate 70 255), CommsOp.read 10,
      CommsOp.write [240, 1, 2], CommsOp.reset, CommsOp.write [0]]
      (by decide)).2⟩

/-- Claim C4: length-class code bounds checking.  The payload-length
table has exactly one entry per 4-bit length-class code, so for every
input byte the index `data[pos] >> 4` used by `comms_can_write` (and the
4-bit `data_len_code` used by `comms_can_read`) is strictly below the
table length: the lookup is always in bounds, and no byte can carry a
length-class code outside the recognized range that would have to be
rejected as corruption. -/
theorem claim_C4_dlc_lookup_in_bounds :
    dlc_to_len.length = 16 ∧
      (∀ b : Nat, b < 256 → b >>> 4 < dlc_to_len.length) ∧
      (∀ (data : List Nat) (pos : Nat), (∀ b ∈ data, b < 256) →
        pos < data.length → data.getD pos 0 >>> 4 < dlc_to_len.length) := by
  have hshift : ∀ b : Nat, b < 256 → b >>> 4 < dlc_to_len.length := by
    intro b hb
    rw [Nat.shiftRight_eq_div_pow]
    have hlen : dlc_to_len.length = 16 := rfl
    rw [hlen]
    exact Nat.div_lt_of_lt_mul (by norm_num; omega)
  refine ⟨rfl, hshift, ?_⟩
  intro data pos hb hpos
  refine hshift _ (hb _ ?_)
  rw [List.getD_eq_getElem data 0 hpos]
  exact List.getElem_mem hpos

/-- Witness for claim C4: the largest byte 255 and a concrete stream
position. -/
theorem claim_C4_witness :
    ((255 : Nat) < 256 ∧ (255 : Nat) >>> 4 < dlc_to_len.length) ∧
      ((∀ b ∈ ([240, 1] : List Nat), b < 256) ∧
        0 < ([240, 1] : List Nat).length ∧
        ([240, 1] : List Nat).getD 0 0 >>> 4 < dlc_to_len.length) :=
  ⟨⟨by decide, claim_C4_dlc_lookup_in_bounds.2.1 255 (by decide)⟩,
    ⟨by decide, by decide,
      claim_C4_dlc_lookup_in_bounds.2.2 [240, 1] 0 (by decide) (by decide)⟩⟩

/-- Claim C9: admission check after every write.  Every
`comms_can_write` call ends (after consuming all of its input, including
calls that leave an incomplete frame buffered) with the admission check,
which signals USB resume iff the transmit pool has at least the
USB-burst reservation free and SPI resume iff it has at least the
SPI-burst reservation free — two independent level-triggered checks. -/
theorem claim_C9_admission_after_write (st : CommsState) (data : List Nat)
    (usb_burst spi_burst slots_free : Nat) :
    (comms_can_write_with_refresh st data usb_burst spi_burst slots_free).1 =
        comms_can_write st data ∧
      ((comms_can_write_with_refresh st data usb_burst spi_burst
          slots_free).2.1 = true ↔ usb_burst ≤ slots_free) ∧
      ((comms_can_write_with_refresh st data usb_burst spi_burst
          slots_free).2.2 = true ↔ spi_burst ≤ slots_free) := by
  refine ⟨rfl, ?_, ?_⟩ <;>
    simp [comms_can_write_with_refresh, refresh_can_tx_slots_available,
      can_tx_check_min_slots_free]
